import Mathlib

/-!
Verification of the demand/revenue core of `src/app.py` (toll-road demand and
revenue simulator).  The numeric model is embedded shallowly over `ℚ`:
`np.float64` arithmetic is modelled by exact rational arithmetic, numpy arrays
and pandas columns by `List ℚ`, and the result `DataFrame` by a list of
`ResultRow` records, one per tariff grid point.  Vectorised numpy operations
are modelled pointwise.
-/

/-- Row of the probability table (`tabla_probabilidades_base` / `df_prob` in
`src/app.py`): a tariff breakpoint `pkm` (USD/km) and the three route-choice
probabilities (`pr_rv`, `pr_mix`, `pr_int`) observed at that tariff. -/
structure ProbRow where
  pkm : ℚ
  pr_rv : ℚ
  pr_mix : ℚ
  pr_int : ℚ
  deriving DecidableEq

/-- Row of the result table built by `calcular_resultados` in `src/app.py`,
with one field per output column, in the column order of the source. -/
structure ResultRow where
  tarifa_usd_km_livianos : ℚ
  tarifa_usd_km_camiones : ℚ
  distancia_promedio_km : ℚ
  pr_rv_liv : ℚ
  Q_rv_liv_veh_dia : ℚ
  pr_mix_liv : ℚ
  Q_mix_liv_veh_dia : ℚ
  pr_int_liv : ℚ
  Q_int_liv_veh_dia : ℚ
  pr_rv_cam : ℚ
  Q_rv_cam_veh_dia : ℚ
  pr_mix_cam : ℚ
  Q_mix_cam_veh_dia : ℚ
  pr_int_cam : ℚ
  Q_int_cam_veh_dia : ℚ
  recaud_liv_usd_dia : ℚ
  recaud_cam_usd_dia : ℚ
  recaud_total_usd_dia : ℚ
  recaud_liv_usd_anio : ℚ
  recaud_cam_usd_anio : ℚ
  recaud_total_usd_anio : ℚ
  deriving DecidableEq

/-- Interior scan of `np.interp` for an ascending sample grid: given the
current sample point `(x0, y0)` and the remaining sample points, locate the
first interval whose right endpoint is `≥ q` and interpolate linearly there
(`slope * (q - x0) + y0`, as in numpy); if the query lies beyond the last
sample point, return the last sample value (the `right=y_grid[-1]` clamp of
`interp_clamp` in `src/app.py`). -/
def interpGo : ℚ → ℚ → List ℚ → List ℚ → ℚ → ℚ
  | _, y0, [], _, _ => y0
  | _, y0, _ :: _, [], _ => y0
  | x0, y0, x1 :: xs, y1 :: ys, q =>
    if q ≤ x1 then (y1 - y0) / (x1 - x0) * (q - x0) + y0
    else interpGo x1 y1 xs ys q

/-- `interp_clamp` of `src/app.py`
(`np.interp(xq, x_grid, y_grid, left=y_grid[0], right=y_grid[-1])`), modelled
for a single query point: linear interpolation on the grid with clamping to
the first/last sample value outside the sampled range.  The source applies it
to a whole query array; the model is applied pointwise.  An empty sample grid
is an error in the source (`y_grid[0]` fails); the model returns `0` there,
and every theorem below only uses non-empty grids. -/
def interp_clamp (x_grid y_grid : List ℚ) (xq : ℚ) : ℚ :=
  match x_grid, y_grid with
  | x0 :: xs, y0 :: ys => if xq < x0 then y0 else interpGo x0 y0 xs ys xq
  | _, _ => 0

/-- Ordered insertion by the `pkm` key, the single step of the concrete
ascending sort `sortRows`. -/
def insertRow (a : ProbRow) : List ProbRow → List ProbRow
  | [] => [a]
  | b :: l => if a.pkm ≤ b.pkm then a :: b :: l else b :: insertRow a l

/-- Model of `df_prob.sort_values("pkm")` in `calcular_resultados`
(`src/app.py` line 87), as one concrete ascending sort of the table by the
`pkm` key (an insertion sort).  Caveat: `sort_values` defaults to
`kind="quicksort"` (numpy introsort), which is not stable, so for tables
with duplicated keys the source leaves the relative order of equal-key rows
unspecified (numpy only falls back to a stable insertion sort below a small
size threshold); this model fixes one such order.  The theorems below rely
only on facts independent of that tie order: the sort is a permutation of
the table and its `pkm` column ends up ascending. -/
def sortRows : List ProbRow → List ProbRow
  | [] => []
  | a :: l => insertRow a (sortRows l)

/-- Scan of `drop_duplicates(subset=["pkm"])` (keep `"first"`, the pandas
default): keep a row only when its `pkm` key has not been seen yet. -/
def dedupGo : List ℚ → List ProbRow → List ProbRow
  | _, [] => []
  | seen, r :: rs =>
    if r.pkm ∈ seen then dedupGo seen rs else r :: dedupGo (r.pkm :: seen) rs

/-- `df_prob.sort_values("pkm").drop_duplicates(subset=["pkm"]).reset_index(drop=True)`
of `src/app.py` line 87: sort ascending by the tariff key, then drop all but
the first post-sort row of each duplicated key (which of several equal-key
rows comes first after sorting is unspecified in the source; see
`sortRows`). -/
def sortDedup (df : List ProbRow) : List ProbRow :=
  dedupGo [] (sortRows df)

/-- Model of `calcular_resultados` in `src/app.py` (lines 75-139): sort and
deduplicate the probability table, interpolate the three route probabilities
at the light tariff and at the multiplied truck tariff, scale by the fleet
volumes to expected quantities, and compute tolled-route (Ruta Viva) revenue
per day and per year (×365).  Each numpy columnwise operation is modelled per
grid point. -/
def calcular_resultados (df_prob : List ProbRow) (tarifa_grid_liv : List ℚ)
    (tpda_liv tpda_cam mult_cam dist_km : ℚ) : List ResultRow :=
  let dfs := sortDedup df_prob
  let x := dfs.map (·.pkm)
  let pr_rv := dfs.map (·.pr_rv)
  let pr_mix := dfs.map (·.pr_mix)
  let pr_int := dfs.map (·.pr_int)
  tarifa_grid_liv.map (fun p_liv =>
    let p_cam := p_liv * mult_cam
    let liv_rv := interp_clamp x pr_rv p_liv
    let liv_mix := interp_clamp x pr_mix p_liv
    let liv_int := interp_clamp x pr_int p_liv
    let cam_rv := interp_clamp x pr_rv p_cam
    let cam_mix := interp_clamp x pr_mix p_cam
    let cam_int := interp_clamp x pr_int p_cam
    let q_rv_liv := tpda_liv * liv_rv
    let q_mix_liv := tpda_liv * liv_mix
    let q_int_liv := tpda_liv * liv_int
    let q_rv_cam := tpda_cam * cam_rv
    let q_mix_cam := tpda_cam * cam_mix
    let q_int_cam := tpda_cam * cam_int
    let recaud_liv := q_rv_liv * (p_liv * dist_km)
    let recaud_cam := q_rv_cam * (p_cam * dist_km)
    let recaud_total := recaud_liv + recaud_cam
    { tarifa_usd_km_livianos := p_liv
      tarifa_usd_km_camiones := p_cam
      distancia_promedio_km := dist_km
      pr_rv_liv := liv_rv
      Q_rv_liv_veh_dia := q_rv_liv
      pr_mix_liv := liv_mix
      Q_mix_liv_veh_dia := q_mix_liv
      pr_int_liv := liv_int
      Q_int_liv_veh_dia := q_int_liv
      pr_rv_cam := cam_rv
      Q_rv_cam_veh_dia := q_rv_cam
      pr_mix_cam := cam_mix
      Q_mix_cam_veh_dia := q_mix_cam
      pr_int_cam := cam_int
      Q_int_cam_veh_dia := q_int_cam
      recaud_liv_usd_dia := recaud_liv
      recaud_cam_usd_dia := recaud_cam
      recaud_total_usd_dia := recaud_total
      recaud_liv_usd_anio := recaud_liv * 365
      recaud_cam_usd_anio := recaud_cam * 365
      recaud_total_usd_anio := recaud_total * 365 })

/-- Maximum of a list of rationals (`0` for the empty list, which is never
used below on an empty list). -/
def listMax : List ℚ → ℚ
  | [] => 0
  | v :: vs => vs.foldl max v

/-- Minimum of a list of rationals (`0` for the empty list, which is never
used below on an empty list). -/
def listMin : List ℚ → ℚ
  | [] => 0
  | v :: vs => vs.foldl min v

/-- Model of `resultados["recaud_total_usd_dia"].idxmax()` in `src/app.py`
(line 279): the positional index of the first row attaining the maximal total
daily revenue (pandas `idxmax` returns the first occurrence of the maximum;
the result table has the default `RangeIndex`, so the label is the position).
On an empty result table pandas raises (`EmptyInputError` in the spec's
taxonomy); the model returns `none` there. -/
def idx_max (rows : List ResultRow) : Option ℕ :=
  match rows with
  | [] => none
  | _ :: _ =>
    let vals := rows.map (·.recaud_total_usd_dia)
    some (vals.findIdx (fun w => decide (w = listMax vals)))

/-- Probability table of the end-to-end example in the spec: tolled-route
probabilities `[0.46, 0.02, 0.00]` on the domain `[0.0, 0.5, 0.8]` (the other
two probability columns are irrelevant to the example and set to `0`). -/
def c1_table : List ProbRow :=
  [⟨0, 46/100, 0, 0⟩, ⟨1/2, 2/100, 0, 0⟩, ⟨4/5, 0, 0, 0⟩]

/-- Concrete one-row probability table used to instantiate universally
quantified theorems in their witnesses. -/
def wTbl : List ProbRow := [⟨0, 1/2, 1/3, 1/4⟩]

/-- The single result row of the engine on `wTbl` with tariff grid `[2]`,
zero fleet volumes, truck multiplier `3` and distance `1`. -/
def wRow : ResultRow :=
  ⟨2, 6, 1, 1/2, 0, 1/3, 0, 1/4, 0, 1/2, 0, 1/3, 0, 1/4, 0, 0, 0, 0, 0, 0, 0⟩

/-- Result row with a given light tariff and total daily revenue and all
other fields zero, used to instantiate argmax theorems in their witnesses. -/
def mkTestRow (t rev : ℚ) : ResultRow :=
  ⟨t, 0, 0, 0, 0, 0, 0, 0, 0, 0, 0, 0, 0, 0, 0, 0, 0, rev, 0, 0, 0⟩

/-- Head of an ascending chain is at most its last element. -/
theorem chain'_head_le_getLast : ∀ (l : List ℚ) (a : ℚ),
    List.Chain' (· ≤ ·) (a :: l) → a ≤ (a :: l).getLast (List.cons_ne_nil a l)
  | [], a, _ => le_refl a
  | b :: l, a, h => by
    rw [List.getLast_cons (List.cons_ne_nil b l)]
    rcases List.chain'_cons.mp h with ⟨hab, hbl⟩
    exact le_trans hab (chain'_head_le_getLast l b hbl)

/-- Head of a strictly ascending chain is below every later element. -/
theorem chain'_head_lt_getD (l : List ℚ) : ∀ (a : ℚ) (j : ℕ),
    List.Chain' (· < ·) (a :: l) → j < l.length → a < l.getD j 0 := by
  induction l with
  | nil => intro a j _ hj; simp at hj
  | cons b l ih =>
    intro a j h hj
    rcases List.chain'_cons.mp h with ⟨hab, hbl⟩
    cases j with
    | zero => simpa using hab
    | succ j =>
      have hj' : j < l.length := by simpa using hj
      simpa using lt_trans hab (ih b j hbl hj')

/-- Head of an ascending chain is at most every later element. -/
theorem chain'_head_le_getD (l : List ℚ) : ∀ (a : ℚ) (j : ℕ),
    List.Chain' (· ≤ ·) (a :: l) → j < l.length → a ≤ l.getD j 0 := by
  induction l with
  | nil => intro a j _ hj; simp at hj
  | cons b l ih =>
    intro a j h hj
    rcases List.chain'_cons.mp h with ⟨hab, hbl⟩
    cases j with
    | zero => simpa using hab
    | succ j =>
      have hj' : j < l.length := by simpa using hj
      simpa using le_trans hab (ih b j hbl hj')

/-- Reading an ascending chain at two positions is monotone. -/
theorem chain'_le_getD_mono (l : List ℚ) : ∀ (i j : ℕ),
    List.Chain' (· ≤ ·) l → i ≤ j → j < l.length → l.getD i 0 ≤ l.getD j 0 := by
  induction l with
  | nil => intro i j _ _ hj; simp at hj
  | cons a l ih =>
    intro i j h hij hj
    cases i with
    | zero =>
      cases j with
      | zero => simp
      | succ j =>
        have hj' : j < l.length := by simpa using hj
        simpa using chain'_head_le_getD l a j h hj'
    | succ i =>
      cases j with
      | zero => omega
      | succ j =>
        have hj' : j < l.length := by simpa using hj
        simpa using ih i j h.tail (by omega) hj'

/-- Scanning past the whole sample grid returns the last sample value. -/
theorem interpGo_right : ∀ (xs ys : List ℚ) (x0 y0 q : ℚ),
    xs.length = ys.length → List.Chain' (· ≤ ·) (x0 :: xs) →
    (x0 :: xs).getLast (List.cons_ne_nil x0 xs) < q →
    interpGo x0 y0 xs ys q = (y0 :: ys).getLast (List.cons_ne_nil y0 ys) := by
  intro xs
  induction xs with
  | nil =>
    intro ys x0 y0 q hlen _ _
    have hys : ys = [] := List.length_eq_zero.mp (by simpa using hlen.symm)
    subst hys
    rfl
  | cons x1 xs ih =>
    intro ys x0 y0 q hlen hch hlast
    cases ys with
    | nil => simp at hlen
    | cons y1 ys =>
      rcases List.chain'_cons.mp hch with ⟨h01, hch'⟩
      have hlast' : (x1 :: xs).getLast (List.cons_ne_nil x1 xs) < q := by
        rwa [List.getLast_cons (List.cons_ne_nil x1 xs)] at hlast
      have hx1 : x1 ≤ (x1 :: xs).getLast (List.cons_ne_nil x1 xs) :=
        chain'_head_le_getLast xs x1 hch'
      have hq : ¬ q ≤ x1 := not_le.mpr (lt_of_le_of_lt hx1 hlast')
      simp only [interpGo]
      rw [if_neg hq, List.getLast_cons (List.cons_ne_nil y1 ys)]
      exact ih ys x1 y1 q (by simpa using hlen) hch' hlast'

/-- Claim C2: for every non-empty ascending domain with values of the same
length, `interp_clamp` returns exactly the first value on queries strictly
below the first domain point, and exactly the last value on queries strictly
above the last domain point (clamp, no extrapolation). -/
theorem c2_interp_clamp_clamps (xs ys : List ℚ) (q x0 y0 xl yl : ℚ)
    (hlen : xs.length = ys.length) (hasc : List.Chain' (· ≤ ·) xs)
    (hx0 : xs.head? = some x0) (hy0 : ys.head? = some y0)
    (hxl : xs.getLast? = some xl) (hyl : ys.getLast? = some yl) :
    (q < x0 → interp_clamp xs ys q = y0) ∧ (xl < q → interp_clamp xs ys q = yl) := by
  cases xs with
  | nil => simp at hx0
  | cons a xs' =>
    cases ys with
    | nil => simp at hy0
    | cons b ys' =>
      have ha : a = x0 := by simpa using hx0
      have hb : b = y0 := by simpa using hy0
      have hxl' : (a :: xs').getLast (List.cons_ne_nil a xs') = xl := by
        have := List.getLast?_eq_getLast (a :: xs') (List.cons_ne_nil a xs')
        rw [this] at hxl
        exact Option.some.inj hxl
      have hyl' : (b :: ys').getLast (List.cons_ne_nil b ys') = yl := by
        have := List.getLast?_eq_getLast (b :: ys') (List.cons_ne_nil b ys')
        rw [this] at hyl
        exact Option.some.inj hyl
      constructor
      · intro hq
        simp only [interp_clamp]
        rw [if_pos (ha.symm ▸ hq : q < a)]
        exact hb
      · intro hq
        have hale : a ≤ xl := hxl' ▸ chain'_head_le_getLast xs' a hasc
        have hnlt : ¬ q < a := not_lt.mpr (le_of_lt (lt_of_le_of_lt hale hq))
        simp only [interp_clamp]
        rw [if_neg hnlt, ← hyl']
        exact interpGo_right xs' ys' a b q (by simpa using hlen) hasc (hxl' ▸ hq)

/-- Witness for C2 on the concrete domain `[0, 1]` with values `[2, 5]`:
below-domain query `-1` returns `2`, above-domain query `7` returns `5`. -/
theorem c2_interp_clamp_clamps_witness :
    interp_clamp [0, 1] [2, 5] (-1) = 2 ∧ interp_clamp [0, 1] [2, 5] 7 = 5 :=
  ⟨(c2_interp_clamp_clamps [0, 1] [2, 5] (-1) 0 2 1 5 rfl
      (by norm_num [List.chain'_cons]) rfl rfl rfl rfl).1 (by norm_num),
   (c2_interp_clamp_clamps [0, 1] [2, 5] 7 0 2 1 5 rfl
      (by norm_num [List.chain'_cons]) rfl rfl rfl rfl).2 (by norm_num)⟩

/-- Scanning a strictly ascending sample grid evaluated exactly at a sample
point returns the corresponding sample value. -/
theorem interpGo_knot : ∀ (xs ys : List ℚ) (x0 y0 : ℚ) (i : ℕ),
    xs.length = ys.length → List.Chain' (· < ·) (x0 :: xs) → i < xs.length + 1 →
    interpGo x0 y0 xs ys ((x0 :: xs).getD i 0) = (y0 :: ys).getD i 0 := by
  intro xs
  induction xs with
  | nil =>
    intro ys x0 y0 i hlen _ hi
    have hys : ys = [] := List.length_eq_zero.mp (by simpa using hlen.symm)
    subst hys
    have hi0 : i = 0 := by simp at hi; omega
    subst hi0
    rfl
  | cons x1 xs ih =>
    intro ys x0 y0 i hlen hch hi
    cases ys with
    | nil => simp at hlen
    | cons y1 ys =>
      rcases List.chain'_cons.mp hch with ⟨h01, hch'⟩
      cases i with
      | zero =>
        simp only [List.getD_cons_zero, interpGo]
        rw [if_pos (le_of_lt h01), sub_self, mul_zero, zero_add]
      | succ i =>
        cases i with
        | zero =>
          simp only [List.getD_cons_succ, List.getD_cons_zero, interpGo]
          rw [if_pos (le_refl x1), div_mul_cancel₀ _ (sub_ne_zero.mpr (ne_of_gt h01)),
            sub_add_cancel]
        | succ j =>
          have hj : j < xs.length := by simpa using hi
          have hx1q : x1 < xs.getD j 0 := chain'_head_lt_getD xs x1 j hch' hj
          simp only [List.getD_cons_succ, interpGo]
          rw [if_neg (not_le.mpr hx1q)]
          have := ih ys x1 y1 (j + 1) (by simpa using hlen) hch' (by omega)
          simpa using this

/-- Claim C3: for every non-empty strictly ascending domain with values of
the same length and every index `i`, interpolating exactly at the domain
point `d[i]` returns exactly `values[i]`. -/
theorem c3_interp_exact_at_knots (xs ys : List ℚ) (i : ℕ)
    (hlen : xs.length = ys.length) (hasc : List.Chain' (· < ·) xs)
    (hi : i < xs.length) :
    interp_clamp xs ys (xs.getD i 0) = ys.getD i 0 := by
  cases xs with
  | nil => simp at hi
  | cons a xs' =>
    cases ys with
    | nil => simp at hlen
    | cons b ys' =>
      have hnlt : ¬ (a :: xs').getD i 0 < a := by
        cases i with
        | zero => simp
        | succ i =>
          have hi' : i < xs'.length := by simpa using hi
          simpa using not_lt.mpr (le_of_lt (chain'_head_lt_getD xs' a i hasc hi'))
      simp only [interp_clamp]
      rw [if_neg hnlt]
      exact interpGo_knot xs' ys' a b i (by simpa using hlen) hasc (by simpa using hi)

/-- Witness for C3 on the concrete domain `[0, 1]` with values `[2, 5]` at
index `1`. -/
theorem c3_interp_exact_at_knots_witness :
    interp_clamp [0, 1] [2, 5] (([0, 1] : List ℚ).getD 1 0) = ([2, 5] : List ℚ).getD 1 0 :=
  c3_interp_exact_at_knots [0, 1] [2, 5] 1 rfl (by norm_num [List.chain'_cons]) (by norm_num)

/-- The interior scan never leaves an interval that bounds all sample
values: each step returns either a clamped sample value or a convex
combination of two consecutive sample values. -/
theorem interpGo_bounds : ∀ (xs ys : List ℚ) (x0 y0 q lo hi : ℚ),
    xs.length = ys.length → x0 ≤ q → lo ≤ y0 → y0 ≤ hi →
    (∀ y ∈ ys, lo ≤ y ∧ y ≤ hi) →
    lo ≤ interpGo x0 y0 xs ys q ∧ interpGo x0 y0 xs ys q ≤ hi := by
  intro xs
  induction xs with
  | nil => intro ys x0 y0 q lo hi _ _ h1 h2 _; exact ⟨h1, h2⟩
  | cons x1 xs ih =>
    intro ys x0 y0 q lo hi hlen hx0q hlo hhi hys
    cases ys with
    | nil => simp at hlen
    | cons y1 ys =>
      have hy1 := hys y1 (List.mem_cons_self y1 ys)
      simp only [interpGo]
      by_cases hq : q ≤ x1
      · rw [if_pos hq]
        rcases lt_or_eq_of_le (le_trans hx0q hq) with hlt | heq
        · have hc : (0 : ℚ) < x1 - x0 := sub_pos.mpr hlt
          have ht0 : 0 ≤ (q - x0) / (x1 - x0) :=
            div_nonneg (sub_nonneg.mpr hx0q) (le_of_lt hc)
          have ht1 : (q - x0) / (x1 - x0) ≤ 1 := (div_le_one hc).mpr (by linarith)
          have hval : (y1 - y0) / (x1 - x0) * (q - x0) + y0
              = (y1 - y0) * ((q - x0) / (x1 - x0)) + y0 := by ring
          rw [hval]
          constructor
          · nlinarith [mul_nonneg ht0 (sub_nonneg.mpr hy1.1),
              mul_nonneg (sub_nonneg.mpr ht1) (sub_nonneg.mpr hlo)]
          · nlinarith [mul_nonneg ht0 (sub_nonneg.mpr hy1.2),
              mul_nonneg (sub_nonneg.mpr ht1) (sub_nonneg.mpr hhi)]
        · have hq0 : q = x0 := le_antisymm (heq ▸ hq) hx0q
          rw [hq0, sub_self, mul_zero, zero_add]
          exact ⟨hlo, hhi⟩
      · rw [if_neg hq]
        exact ih ys x1 y1 q lo hi (by simpa using hlen) (le_of_lt (not_le.mp hq)) hy1.1 hy1.2
          (fun y hy => hys y (List.mem_cons_of_mem y1 hy))

/-- Ordered insertion permutes consing. -/
theorem insertRow_perm (a : ProbRow) (l : List ProbRow) :
    List.Perm (insertRow a l) (a :: l) := by
  induction l with
  | nil => exact List.Perm.refl [a]
  | cons b l ih =>
    simp only [insertRow]
    by_cases h : a.pkm ≤ b.pkm
    · rw [if_pos h]
    · rw [if_neg h]
      exact (ih.cons b).trans (List.Perm.swap a b l)

/-- The stable sort permutes the table. -/
theorem sortRows_perm (l : List ProbRow) : List.Perm (sortRows l) l := by
  induction l with
  | nil => exact List.Perm.refl []
  | cons a l ih => exact (insertRow_perm a (sortRows l)).trans (ih.cons a)

/-- Ordered insertion preserves sortedness by the `pkm` key. -/
theorem insertRow_pairwise (a : ProbRow) (l : List ProbRow)
    (h : List.Pairwise (fun x y => x.pkm ≤ y.pkm) l) :
    List.Pairwise (fun x y => x.pkm ≤ y.pkm) (insertRow a l) := by
  induction l with
  | nil => simp [insertRow]
  | cons b l ih =>
    rcases List.pairwise_cons.mp h with ⟨hb, hl⟩
    simp only [insertRow]
    by_cases hab : a.pkm ≤ b.pkm
    · rw [if_pos hab]
      refine List.pairwise_cons.mpr ⟨?_, h⟩
      intro c hc
      rcases List.mem_cons.mp hc with rfl | hcl
      · exact hab
      · exact le_trans hab (hb c hcl)
    · rw [if_neg hab]
      refine List.pairwise_cons.mpr ⟨?_, ih hl⟩
      intro c hc
      rcases List.mem_cons.mp ((insertRow_perm a l).mem_iff.mp hc) with rfl | hcl
      · exact le_of_lt (not_le.mp hab)
      · exact hb c hcl

/-- The stable sort sorts by the `pkm` key. -/
theorem sortRows_pairwise (l : List ProbRow) :
    List.Pairwise (fun x y => x.pkm ≤ y.pkm) (sortRows l) := by
  induction l with
  | nil => exact List.Pairwise.nil
  | cons a l ih => exact insertRow_pairwise a (sortRows l) ih

/-- Deduplication returns a sublist of its input. -/
theorem dedupGo_sublist (seen : List ℚ) (l : List ProbRow) :
    List.Sublist (dedupGo seen l) l := by
  induction l generalizing seen with
  | nil => exact List.Sublist.refl []
  | cons r rs ih =>
    simp only [dedupGo]
    by_cases h : r.pkm ∈ seen
    · rw [if_pos h]; exact List.Sublist.cons r (ih seen)
    · rw [if_neg h]; exact List.Sublist.cons₂ r (ih (r.pkm :: seen))

/-- Every row kept by `sortDedup` is a row of the original table. -/
theorem mem_of_mem_sortDedup {r : ProbRow} {df : List ProbRow}
    (h : r ∈ sortDedup df) : r ∈ df :=
  (sortRows_perm df).mem_iff.mp ((dedupGo_sublist [] (sortRows df)).mem h)

/-- The sorted, deduplicated table is sorted by the `pkm` key. -/
theorem sortDedup_pairwise (df : List ProbRow) :
    List.Pairwise (fun x y => x.pkm ≤ y.pkm) (sortDedup df) :=
  List.Pairwise.sublist (dedupGo_sublist [] (sortRows df)) (sortRows_pairwise df)

/-- The domain column of the sorted, deduplicated table is ascending. -/
theorem sortDedup_chain'_pkm (df : List ProbRow) :
    List.Chain' (· ≤ ·) ((sortDedup df).map (·.pkm)) :=
  (List.pairwise_map.mpr (sortDedup_pairwise df)).chain'

/-- A non-empty table stays non-empty after sorting and deduplication. -/
theorem sortDedup_ne_nil {df : List ProbRow} (h : df ≠ []) : sortDedup df ≠ [] := by
  cases hs : sortRows df with
  | nil =>
    have : df.length = 0 := by rw [← (sortRows_perm df).length_eq, hs]; rfl
    exact absurd (List.length_eq_zero.mp this) h
  | cons r rs =>
    simp [sortDedup, hs, dedupGo]

/-- On a non-empty value list bounded by `[lo, hi]`, every `interp_clamp`
result stays in `[lo, hi]`. -/
theorem interp_clamp_bounds (xs ys : List ℚ) (q lo hi : ℚ)
    (hlen : xs.length = ys.length) (hys : ys ≠ [])
    (hbd : ∀ y ∈ ys, lo ≤ y ∧ y ≤ hi) :
    lo ≤ interp_clamp xs ys q ∧ interp_clamp xs ys q ≤ hi := by
  cases xs with
  | nil =>
    cases ys with
    | nil => exact absurd rfl hys
    | cons b ys' => simp at hlen
  | cons a xs' =>
    cases ys with
    | nil => exact absurd rfl hys
    | cons b ys' =>
      have hb := hbd b (List.mem_cons_self b ys')
      simp only [interp_clamp]
      by_cases hq : q < a
      · rw [if_pos hq]; exact hb
      · rw [if_neg hq]
        exact interpGo_bounds xs' ys' a b q lo hi (by simpa using hlen) (not_lt.mp hq)
          hb.1 hb.2 (fun y hy => hbd y (List.mem_cons_of_mem b hy))

/-- The seed of a max-fold is below the fold's result. -/
theorem le_foldl_max_init : ∀ (vs : List ℚ) (v : ℚ), v ≤ vs.foldl max v := by
  intro vs
  induction vs with
  | nil => intro v; exact le_refl v
  | cons u vs ih =>
    intro v
    simpa using le_trans (le_max_left v u) (ih (max v u))

/-- Every element entering a max-fold is below the fold's result. -/
theorem le_foldl_max : ∀ (vs : List ℚ) (v w : ℚ), w = v ∨ w ∈ vs → w ≤ vs.foldl max v := by
  intro vs
  induction vs with
  | nil =>
    intro v w h
    rcases h with rfl | h
    · exact le_refl w
    · simp at h
  | cons u vs ih =>
    intro v w h
    simp only [List.foldl_cons]
    rcases h with rfl | h
    · exact le_trans (le_max_left w u) (le_foldl_max_init vs (max w u))
    · rcases List.mem_cons.mp h with rfl | h
      · exact le_trans (le_max_right v w) (le_foldl_max_init vs (max v w))
      · exact ih (max v u) w (Or.inr h)

/-- A max-fold returns its seed or one of its elements. -/
theorem foldl_max_mem : ∀ (vs : List ℚ) (v : ℚ), vs.foldl max v = v ∨ vs.foldl max v ∈ vs := by
  intro vs
  induction vs with
  | nil => intro v; exact Or.inl rfl
  | cons u vs ih =>
    intro v
    simp only [List.foldl_cons]
    rcases ih (max v u) with h | h
    · rcases le_total v u with hvu | huv
      · right
        rw [h, max_eq_right hvu]
        exact List.mem_cons_self u vs
      · left
        rw [h, max_eq_left huv]
    · right
      exact List.mem_cons_of_mem u h

/-- Every member of a list is below the list's maximum. -/
theorem mem_le_listMax {l : List ℚ} {w : ℚ} (h : w ∈ l) : w ≤ listMax l := by
  cases l with
  | nil => simp at h
  | cons v vs => exact le_foldl_max vs v w (List.mem_cons.mp h)

/-- The maximum of a non-empty list is one of its members. -/
theorem listMax_mem {l : List ℚ} (h : l ≠ []) : listMax l ∈ l := by
  cases l with
  | nil => exact absurd rfl h
  | cons v vs =>
    rcases foldl_max_mem vs v with h1 | h1
    · rw [listMax, h1]
      exact List.mem_cons_self v vs
    · rw [listMax]
      exact List.mem_cons_of_mem v h1

/-- The seed of a min-fold is above the fold's result. -/
theorem foldl_min_init_le : ∀ (vs : List ℚ) (v : ℚ), vs.foldl min v ≤ v := by
  intro vs
  induction vs with
  | nil => intro v; exact le_refl v
  | cons u vs ih =>
    intro v
    simpa using le_trans (ih (min v u)) (min_le_left v u)

/-- Every element entering a min-fold is above the fold's result. -/
theorem foldl_min_le : ∀ (vs : List ℚ) (v w : ℚ), w = v ∨ w ∈ vs → vs.foldl min v ≤ w := by
  intro vs
  induction vs with
  | nil =>
    intro v w h
    rcases h with rfl | h
    · exact le_refl w
    · simp at h
  | cons u vs ih =>
    intro v w h
    simp only [List.foldl_cons]
    rcases h with rfl | h
    · exact le_trans (foldl_min_init_le vs (min w u)) (min_le_left w u)
    · rcases List.mem_cons.mp h with rfl | h
      · exact le_trans (foldl_min_init_le vs (min v w)) (min_le_right v w)
      · exact ih (min v u) w (Or.inr h)

/-- The list's minimum is below every member. -/
theorem listMin_le_mem {l : List ℚ} {w : ℚ} (h : w ∈ l) : listMin l ≤ w := by
  cases l with
  | nil => simp at h
  | cons v vs => exact foldl_min_le vs v w (List.mem_cons.mp h)

/-- Reading below the length with a default reads the actual element. -/
theorem getD_eq_getElem_of_lt (l : List ℚ) (n : ℕ) (h : n < l.length) :
    l.getD n 0 = l[n] := by
  rw [List.getD_eq_getElem?_getD, List.getElem?_eq_getElem h]
  rfl

/-- Claim C6: the revenue-maximizing-tariff finder fails exactly on the
empty result sequence (modelled as `none`); on every non-empty sequence it
returns an index. -/
theorem c6_idx_max_empty_fails :
    idx_max ([] : List ResultRow) = none ∧
    ∀ rows : List ResultRow, rows ≠ [] → (idx_max rows).isSome = true := by
  refine ⟨rfl, ?_⟩
  intro rows h
  cases rows with
  | nil => exact absurd rfl h
  | cons r rs => rfl

/-- Witness for C6 on a one-row result sequence. -/
theorem c6_idx_max_empty_fails_witness :
    (idx_max [mkTestRow 0 0]).isSome = true :=
  c6_idx_max_empty_fails.2 [mkTestRow 0 0] (List.cons_ne_nil _ _)

set_option maxHeartbeats 1600000 in
/-- Claim C5: when two rows `i < j` both attain the maximal total daily
revenue and the rows are in ascending tariff order, `idx_max` returns a
stable argmax: an index `k ≤ i` attaining the maximum, whose tariff is at
most the tariff of the later tied row `j`, and before which no row attains
the maximum (first occurrence wins). -/
theorem c5_idx_max_stable (rows : List ResultRow) (i j k : ℕ)
    (hi : i < rows.length) (hj : j < rows.length) (hij : i < j)
    (hmax : ∀ m, m < rows.length →
      (rows.map (·.recaud_total_usd_dia)).getD m 0
        ≤ (rows.map (·.recaud_total_usd_dia)).getD i 0)
    (heq : (rows.map (·.recaud_total_usd_dia)).getD j 0
        = (rows.map (·.recaud_total_usd_dia)).getD i 0)
    (hasc : List.Chain' (· ≤ ·) (rows.map (·.tarifa_usd_km_livianos)))
    (hk : idx_max rows = some k) :
    k ≤ i ∧
    (rows.map (·.recaud_total_usd_dia)).getD k 0
      = (rows.map (·.recaud_total_usd_dia)).getD i 0 ∧
    (rows.map (·.tarifa_usd_km_livianos)).getD k 0
      ≤ (rows.map (·.tarifa_usd_km_livianos)).getD j 0 ∧
    ∀ m, m < k → (rows.map (·.recaud_total_usd_dia)).getD m 0
      ≠ (rows.map (·.recaud_total_usd_dia)).getD i 0 := by
  obtain ⟨r0, rs, rfl⟩ : ∃ r0 rs, rows = r0 :: rs := by
    cases rows with
    | nil => simp at hi
    | cons a l => exact ⟨a, l, rfl⟩
  have hk' : k = ((r0 :: rs).map (·.recaud_total_usd_dia)).findIdx
      (fun w => decide (w = listMax ((r0 :: rs).map (·.recaud_total_usd_dia)))) := by
    simp only [idx_max] at hk
    exact (Option.some.inj hk).symm
  subst hk'
  set vals := (r0 :: rs).map (·.recaud_total_usd_dia) with hvals
  have hlen : vals.length = (r0 :: rs).length := by simp [hvals]
  have hvne : vals ≠ [] := by simp [hvals]
  clear_value vals
  have hMmem : listMax vals ∈ vals := listMax_mem hvne
  have hex : ∃ w ∈ vals, (fun w => decide (w = listMax vals)) w :=
    ⟨listMax vals, hMmem, by simp⟩
  have hklt : vals.findIdx (fun w => decide (w = listMax vals)) < vals.length :=
    List.findIdx_lt_length_of_exists hex
  have hiv : i < vals.length := by rw [hlen]; exact hi
  have hiMax : vals.getD i 0 = listMax vals := by
    apply le_antisymm
    · exact mem_le_listMax ((getD_eq_getElem_of_lt vals i hiv).symm ▸ vals.getElem_mem hiv)
    · obtain ⟨m, hm, hmeq⟩ := List.mem_iff_getElem.mp hMmem
      have hmx := hmax m (by rw [← hlen]; exact hm)
      rw [getD_eq_getElem_of_lt vals m hm, hmeq] at hmx
      exact hmx
  have hkval : vals[vals.findIdx (fun w => decide (w = listMax vals))] = listMax vals := by
    have hfi := @List.findIdx_getElem _ (fun w => decide (w = listMax vals)) vals hklt
    simpa using hfi
  have hki : vals.findIdx (fun w => decide (w = listMax vals)) ≤ i := by
    by_contra hcon
    push_neg at hcon
    have hfalse := List.not_of_lt_findIdx hcon
    simp only [decide_eq_false_iff_not] at hfalse
    exact hfalse (by rw [← getD_eq_getElem_of_lt vals i hiv]; exact hiMax)
  refine ⟨hki, ?_, ?_, ?_⟩
  · rw [getD_eq_getElem_of_lt vals _ hklt, hkval, hiMax]
  · have hjlen : j < ((r0 :: rs).map (·.tarifa_usd_km_livianos)).length := by
      simpa using hj
    exact chain'_le_getD_mono ((r0 :: rs).map (·.tarifa_usd_km_livianos))
      (vals.findIdx (fun w => decide (w = listMax vals))) j hasc
      (le_trans hki (le_of_lt hij)) hjlen
  · intro m hm
    have hfalse := List.not_of_lt_findIdx hm
    simp only [decide_eq_false_iff_not] at hfalse
    rw [getD_eq_getElem_of_lt vals m (lt_trans hm hklt), hiMax]
    exact hfalse

/-- Witness for C5 on two rows tied at total daily revenue `5` with tariffs
`0 < 1`: the returned row's tariff is at most the later tied row's tariff. -/
theorem c5_idx_max_stable_witness :
    (([mkTestRow 0 5, mkTestRow 1 5]).map (·.tarifa_usd_km_livianos)).getD 0 0
      ≤ (([mkTestRow 0 5, mkTestRow 1 5]).map (·.tarifa_usd_km_livianos)).getD 1 0 :=
  (c5_idx_max_stable [mkTestRow 0 5, mkTestRow 1 5] 0 1 0 (by norm_num) (by norm_num)
    (by norm_num)
    (by
      intro m hm
      have h2 : m < 2 := by simpa using hm
      interval_cases m <;> norm_num [mkTestRow])
    (by norm_num [mkTestRow])
    (by norm_num [mkTestRow, List.chain'_cons])
    (by norm_num [idx_max, mkTestRow, listMax, List.findIdx_cons])).2.2.1

/-- Claim C1: on the spec's end-to-end example (table domain `[0, 0.5, 0.8]`
with tolled-route values `[0.46, 0.02, 0]`, grid `[0, 0.25, 0.5]`,
`tpda_light = 1000`, `tpda_truck = 0`, distance `10`), the result row at
tariff `0.25` has interpolated tolled-route light probability exactly
`0.24`, expected light quantity exactly `240`, and light revenue per day
exactly `600`. -/
theorem c1_end_to_end :
    ((calcular_resultados c1_table [0, 1/4, 1/2] 1000 0 1 10).map
        (fun r => (r.tarifa_usd_km_livianos, r.pr_rv_liv, r.Q_rv_liv_veh_dia,
          r.recaud_liv_usd_dia)))[1]?
      = some (1/4, 24/100, 240, 600) := by
  norm_num [calcular_resultados, c1_table, sortDedup, sortRows, insertRow, dedupGo,
    interp_clamp, interpGo]

/-- Claim C4: for every tariff grid the engine returns exactly one result
row per grid point, the `i`-th row carrying the `i`-th grid value as its
light tariff (so an ascending grid yields rows in ascending tariff order),
and the empty grid yields the empty result rather than an error. -/
theorem c4_grid_rows (df : List ProbRow) (grid : List ℚ) (tl tc mc d : ℚ) :
    (calcular_resultados df grid tl tc mc d).map (·.tarifa_usd_km_livianos) = grid ∧
    (calcular_resultados df grid tl tc mc d).length = grid.length ∧
    (List.Chain' (· ≤ ·) grid →
      List.Chain' (· ≤ ·)
        ((calcular_resultados df grid tl tc mc d).map (·.tarifa_usd_km_livianos))) ∧
    calcular_resultados df [] tl tc mc d = [] := by
  have hmap : (calcular_resultados df grid tl tc mc d).map (·.tarifa_usd_km_livianos)
      = grid := by
    simp only [calcular_resultados]
    rw [List.map_map]
    exact List.map_id'' (fun t => rfl) grid
  refine ⟨hmap, ?_, ?_, ?_⟩
  · simpa using congrArg List.length hmap
  · intro h
    rw [hmap]
    exact h
  · simp [calcular_resultados]

/-- Witness for C4: the engine on the ascending grid `[0, 1]` produces rows
in ascending tariff order. -/
theorem c4_grid_rows_witness :
    List.Chain' (· ≤ ·)
      ((calcular_resultados wTbl [0, 1] 1 1 1 1).map (·.tarifa_usd_km_livianos)) :=
  (c4_grid_rows wTbl [0, 1] 1 1 1 1).2.2.1 (by norm_num [List.chain'_cons])

/-- Claim C8: with `tpda_light = tpda_truck = 0` and positive distance,
every expected-quantity column and every revenue column (daily and annual,
light, truck and total) of every result row is exactly zero, for every
table, grid and multiplier. -/
theorem c8_zero_volume (df : List ProbRow) (grid : List ℚ) (mult dist : ℚ)
    (_hd : 0 < dist) :
    ∀ r ∈ calcular_resultados df grid 0 0 mult dist,
      r.Q_rv_liv_veh_dia = 0 ∧ r.Q_mix_liv_veh_dia = 0 ∧ r.Q_int_liv_veh_dia = 0 ∧
      r.Q_rv_cam_veh_dia = 0 ∧ r.Q_mix_cam_veh_dia = 0 ∧ r.Q_int_cam_veh_dia = 0 ∧
      r.recaud_liv_usd_dia = 0 ∧ r.recaud_cam_usd_dia = 0 ∧ r.recaud_total_usd_dia = 0 ∧
      r.recaud_liv_usd_anio = 0 ∧ r.recaud_cam_usd_anio = 0 ∧
      r.recaud_total_usd_anio = 0 := by
  intro r hr
  simp only [calcular_resultados, List.mem_map] at hr
  obtain ⟨t, ht, rfl⟩ := hr
  simp

/-- Claim C9: in every result row the annual total revenue equals the annual
light revenue plus the annual truck revenue, even though the engine
annualizes the daily total instead of summing the two annual parts. -/
theorem c9_annual_additivity (df : List ProbRow) (grid : List ℚ) (tl tc mc d : ℚ) :
    ∀ r ∈ calcular_resultados df grid tl tc mc d,
      r.recaud_total_usd_anio = r.recaud_liv_usd_anio + r.recaud_cam_usd_anio := by
  intro r hr
  simp only [calcular_resultados, List.mem_map] at hr
  obtain ⟨t, ht, rfl⟩ := hr
  dsimp only
  ring

/-- The engine on the one-row witness table: one grid point `2`, zero
volumes, multiplier `3`, distance `1`, giving the single row `wRow`. -/
theorem calc_wTbl_eq : calcular_resultados wTbl [2] 0 0 3 1 = [wRow] := by
  norm_num [calcular_resultados, wTbl, wRow, sortDedup, sortRows, insertRow, dedupGo,
    interp_clamp, interpGo]

/-- Witness for C8 on the concrete zero-volume run `calc_wTbl_eq`. -/
theorem c8_zero_volume_witness :
    wRow.Q_rv_liv_veh_dia = 0 ∧ wRow.Q_mix_liv_veh_dia = 0 ∧ wRow.Q_int_liv_veh_dia = 0 ∧
    wRow.Q_rv_cam_veh_dia = 0 ∧ wRow.Q_mix_cam_veh_dia = 0 ∧ wRow.Q_int_cam_veh_dia = 0 ∧
    wRow.recaud_liv_usd_dia = 0 ∧ wRow.recaud_cam_usd_dia = 0 ∧
    wRow.recaud_total_usd_dia = 0 ∧ wRow.recaud_liv_usd_anio = 0 ∧
    wRow.recaud_cam_usd_anio = 0 ∧ wRow.recaud_total_usd_anio = 0 :=
  c8_zero_volume wTbl [2] 3 1 (by norm_num) wRow
    (by rw [calc_wTbl_eq]; exact List.mem_cons_self wRow [])

/-- Witness for C9 on the same concrete run. -/
theorem c9_annual_additivity_witness :
    wRow.recaud_total_usd_anio = wRow.recaud_liv_usd_anio + wRow.recaud_cam_usd_anio :=
  c9_annual_additivity wTbl [2] 0 0 3 1 wRow
    (by rw [calc_wTbl_eq]; exact List.mem_cons_self wRow [])

/-- Claim C10: on a non-empty ascending domain with values of equal length,
every `interp_clamp` result lies between any lower and upper bound of the
value list (hence between its minimum and maximum); consequently every
interpolated probability in the engine's result rows lies within the range
of the corresponding probability column of the base table. -/
theorem c10_prob_bounds :
    (∀ (xs ys : List ℚ) (q lo hi : ℚ), xs.length = ys.length →
        List.Chain' (· ≤ ·) xs → ys ≠ [] → (∀ y ∈ ys, lo ≤ y ∧ y ≤ hi) →
        lo ≤ interp_clamp xs ys q ∧ interp_clamp xs ys q ≤ hi) ∧
    (∀ (df : List ProbRow) (grid : List ℚ) (tl tc mc d : ℚ), df ≠ [] →
      ∀ r ∈ calcular_resultados df grid tl tc mc d,
        (listMin (df.map (·.pr_rv)) ≤ r.pr_rv_liv ∧
          r.pr_rv_liv ≤ listMax (df.map (·.pr_rv))) ∧
        (listMin (df.map (·.pr_mix)) ≤ r.pr_mix_liv ∧
          r.pr_mix_liv ≤ listMax (df.map (·.pr_mix))) ∧
        (listMin (df.map (·.pr_int)) ≤ r.pr_int_liv ∧
          r.pr_int_liv ≤ listMax (df.map (·.pr_int))) ∧
        (listMin (df.map (·.pr_rv)) ≤ r.pr_rv_cam ∧
          r.pr_rv_cam ≤ listMax (df.map (·.pr_rv))) ∧
        (listMin (df.map (·.pr_mix)) ≤ r.pr_mix_cam ∧
          r.pr_mix_cam ≤ listMax (df.map (·.pr_mix))) ∧
        (listMin (df.map (·.pr_int)) ≤ r.pr_int_cam ∧
          r.pr_int_cam ≤ listMax (df.map (·.pr_int)))) := by
  constructor
  · intro xs ys q lo hi hlen _ hys hbd
    exact interp_clamp_bounds xs ys q lo hi hlen hys hbd
  · intro df grid tl tc mc d hdf r hr
    simp only [calcular_resultados, List.mem_map] at hr
    obtain ⟨t, ht, rfl⟩ := hr
    have hcol : ∀ (f : ProbRow → ℚ) (qv : ℚ),
        listMin (df.map f)
            ≤ interp_clamp ((sortDedup df).map (·.pkm)) ((sortDedup df).map f) qv ∧
          interp_clamp ((sortDedup df).map (·.pkm)) ((sortDedup df).map f) qv
            ≤ listMax (df.map f) := by
      intro f qv
      apply interp_clamp_bounds
      · simp
      · simpa using sortDedup_ne_nil hdf
      · intro y hy
        rcases List.mem_map.mp hy with ⟨s, hs, rfl⟩
        exact ⟨listMin_le_mem (List.mem_map_of_mem f (mem_of_mem_sortDedup hs)),
          mem_le_listMax (List.mem_map_of_mem f (mem_of_mem_sortDedup hs))⟩
    dsimp only
    exact ⟨hcol (·.pr_rv) t, hcol (·.pr_mix) t, hcol (·.pr_int) t,
      hcol (·.pr_rv) (t * mc), hcol (·.pr_mix) (t * mc), hcol (·.pr_int) (t * mc)⟩

/-- Witness for C10: the interpolant on `[0, 1] → [2, 5]` at `1/2` stays in
`[2, 5]`, and the tolled-route light probability of the concrete engine run
stays within the base table's tolled-route probability column range. -/
theorem c10_prob_bounds_witness :
    ((2 : ℚ) ≤ interp_clamp [0, 1] [2, 5] (1/2) ∧ interp_clamp [0, 1] [2, 5] (1/2) ≤ 5) ∧
    (listMin (wTbl.map (·.pr_rv)) ≤ wRow.pr_rv_liv ∧
      wRow.pr_rv_liv ≤ listMax (wTbl.map (·.pr_rv))) :=
  ⟨c10_prob_bounds.1 [0, 1] [2, 5] (1/2) 2 5 rfl (by norm_num [List.chain'_cons])
      (List.cons_ne_nil _ _) (by norm_num),
   (c10_prob_bounds.2 wTbl [2] 0 0 3 1 (List.cons_ne_nil _ _) wRow
      (by rw [calc_wTbl_eq]; exact List.mem_cons_self wRow [])).1⟩
